import Mathlib

/-!
Shallow embedding of the persisted conversation-context subsystem of
`assistant.py` (repository `vs34/LLM-RTL-helper`), together with the
name-sanitization, unique-filename and command-dispatch helpers.

Text is modelled as `List Char` (a Python `str` is a sequence of
characters; the repository only manipulates it character-wise).
A transcript file is modelled at the JSON-value level: each stored line
is an `Option Json` — `some j` when the line parses as the JSON value
`j`, `none` when the line is not valid JSON (a malformed line).  The
context directory is a finite map from file name to file content.
-/

/-- Convenience: the character list of a string literal. -/
def chars (s : String) : List Char := s.toList

/-- Python `str.isspace` characters relevant to `strip`/`split`:
space, tab, newline, carriage return, vertical tab, form feed
(modelled over the ASCII fragment). -/
def pyIsSpace (c : Char) : Bool :=
  c.toNat = 32 || c.toNat = 9 || c.toNat = 10 || c.toNat = 13 ||
  c.toNat = 11 || c.toNat = 12

/-- Python `str.lower` on one character (ASCII fragment): maps `A`–`Z`
to `a`–`z` and leaves every other character unchanged. -/
def pyLower (c : Char) : Char :=
  if 65 ≤ c.toNat ∧ c.toNat ≤ 90 then Char.ofNat (c.toNat + 32) else c

/-- An ASCII upper-case letter `A`–`Z`. -/
def asciiUpper (c : Char) : Bool :=
  65 ≤ c.toNat && c.toNat ≤ 90

/-- Python regex `\w` (ASCII fragment): letters, digits and underscore. -/
def isWordChar (c : Char) : Bool :=
  (48 ≤ c.toNat && c.toNat ≤ 57) || (65 ≤ c.toNat && c.toNat ≤ 90) ||
  (97 ≤ c.toNat && c.toNat ≤ 122) || c.toNat = 95

/-- Python `str.strip()`: drop leading and trailing whitespace. -/
def pyStrip (l : List Char) : List Char :=
  ((l.dropWhile pyIsSpace).reverse.dropWhile pyIsSpace).reverse

/-- Python `str.startswith(pat)` on character lists. -/
def startsWith : List Char → List Char → Bool
  | [], _ => true
  | _ :: _, [] => false
  | p :: ps, c :: cs => if p = c then startsWith ps cs else false

/-- Python `str.endswith(pat)` on character lists. -/
def endsWith (pat l : List Char) : Bool :=
  startsWith pat.reverse l.reverse

/-- Python substring containment `pat in s` on character lists. -/
def containsSub (pat : List Char) : List Char → Bool
  | [] => pat.isEmpty
  | c :: cs => startsWith pat (c :: cs) || containsSub pat cs

/-- Python `s.replace(pat, "")` (assistant.py line 91 uses
`file.replace(".jsonl", "")`): remove every occurrence of `pat`,
scanning left to right, non-overlapping. -/
def removeAll (pat : List Char) : List Char → List Char
  | [] => []
  | c :: cs =>
    if h : startsWith pat (c :: cs) = true ∧ pat ≠ [] then
      removeAll pat ((c :: cs).drop pat.length)
    else c :: removeAll pat cs
termination_by l => l.length
decreasing_by
  · simp only [List.length_drop, List.length_cons]
    have hp : pat.length ≥ 1 := by
      cases pat with
      | nil => exact absurd rfl h.2
      | cons a as => simp
    omega
  · simp

/-- Model of `re.sub(r'\W+', '_', s)` (assistant.py line 45): each
character of a word class is kept, and each maximal run of non-word
characters is replaced by a single underscore. -/
def squashNonWord : List Char → List Char
  | [] => []
  | c :: cs =>
    if isWordChar c then c :: squashNonWord cs
    else '_' :: squashNonWord (cs.dropWhile (fun d => !isWordChar d))
termination_by l => l.length
decreasing_by
  · simp
  · have := (List.dropWhile_sublist (l := cs) (fun d => !isWordChar d)).length_le
    simp only [List.length_cons]
    omega

/-- Model of `sanitize_name` (assistant.py lines 44–45):
`re.sub(r'\W+', '_', name.strip().lower())`. -/
def sanitize_name (name : List Char) : List Char :=
  squashNonWord ((pyStrip name).map pyLower)

/-- Decimal rendering of a natural number, as Python's `str`/f-string
interpolation produces for a non-negative `int`. -/
def natDecimal (n : Nat) : List Char :=
  if h : n < 10 then [Char.ofNat (48 + n)]
  else natDecimal (n / 10) ++ [Char.ofNat (48 + n % 10)]
termination_by n
decreasing_by
  exact Nat.div_lt_self (by omega) (by omega)

/-- Model of `os.path.join(folder, name)` for the repository's usage:
a directory path without trailing separator joined to a relative
file name. -/
def pjoin (folder name : List Char) : List Char := folder ++ '/' :: name

/-- The candidate file name `f"{base_name}_{counter}.v"` tried by
`get_unique_filename` (assistant.py line 52). -/
def vFile (base_name : List Char) (counter : Nat) : List Char :=
  base_name ++ '_' :: (natDecimal counter ++ chars ".v")

/-- The `while os.path.exists(full_path)` loop of `get_unique_filename`
(assistant.py lines 50–54).  `ex` is the set of existing paths;
`fuel` bounds the unbounded Python loop (any `fuel > ex.length`
suffices, see `get_unique_filename_spec`). -/
def gufLoop (base_name folder : List Char) (ex : List (List Char)) :
    Nat → Nat → Option (List Char)
  | _, 0 => none
  | counter, fuel + 1 =>
    let full_path := pjoin folder (vFile base_name counter)
    if full_path ∈ ex then gufLoop base_name folder ex (counter + 1) fuel
    else some full_path

/-- Model of `get_unique_filename` (assistant.py lines 47–55): try
`<base>.v` first, then `<base>_1.v`, `<base>_2.v`, … until a path not
in `ex` (the set of existing paths) is found. -/
def get_unique_filename (base_name folder : List Char)
    (ex : List (List Char)) : Option (List Char) :=
  let full_path := pjoin folder (base_name ++ chars ".v")
  if full_path ∈ ex then gufLoop base_name folder ex 1 (ex.length + 1)
  else some full_path

/-- JSON values, as produced by Python's `json.loads` (numbers are
modelled as integers; the transcript records never carry numbers). -/
inductive Json where
  | null : Json
  | bool (b : Bool) : Json
  | num (n : Int) : Json
  | str (s : List Char) : Json
  | arr (elems : List Json) : Json
  | obj (fields : List (List Char × Json)) : Json

/-- Lookup of a key in a JSON object's field list (Python dict access;
`json.loads` keeps at most one binding per key). -/
def jlookup : List (List Char × Json) → List Char → Option Json
  | [], _ => none
  | (k, v) :: rest, key => if k = key then some v else jlookup rest key

/-- The nested Turn record written by the store (assistant.py lines
84–85 and 123–124). -/
def turnJson (role text : List Char) : Json :=
  Json.obj [(chars "role", Json.str role),
            (chars "parts", Json.arr [Json.obj [(chars "text", Json.str text)]])]

/-- Test used for Python's `"text" in entry` when `entry` is a list:
element equality against the string `"text"`. -/
def jeqStrText (j : Json) : Bool :=
  match j with
  | Json.str s => s = chars "text"
  | _ => false

/-- Model of the body of the `try` block of `load_context`
(assistant.py lines 105–108) applied to one successfully parsed JSON
value: if the entry has a flat `text` field it is rebuilt into the
nested shape (raising `KeyError`, hence `none`, when `role` is
missing); otherwise the entry is appended as is.  Non-dict values
follow Python's `in` semantics: membership test for lists, substring
test for strings, `TypeError` (hence `none`) otherwise. -/
def processEntry : Json → Option Json
  | Json.obj fields =>
    match jlookup fields (chars "text") with
    | some t =>
      match jlookup fields (chars "role") with
      | some r =>
        some (Json.obj [(chars "role", r),
                        (chars "parts", Json.arr [Json.obj [(chars "text", t)]])])
      | none => none
    | none => some (Json.obj fields)
  | Json.str s => if containsSub (chars "text") s then none else some (Json.str s)
  | Json.arr xs => if xs.any jeqStrText then none else some (Json.arr xs)
  | _ => none

/-- One stored line: `some j` when the line parses as JSON value `j`,
`none` when malformed.  `parseLine` is the whole per-line `try` block:
a parse failure or a failing entry rebuild is silently skipped. -/
def parseLine (line : Option Json) : Option Json :=
  line.bind processEntry

/-- The context directory: a finite map from file name (inside
`ContextDir`) to file content, one `Option Json` per stored line. -/
def FS : Type := List (List Char × List (Option Json))

/-- Read a file of the context directory. -/
def fsLookup : FS → List Char → Option (List (Option Json))
  | [], _ => none
  | (q, w) :: rest, p => if q = p then some w else fsLookup rest p

/-- Python `open(path, "w")` followed by writes: create or truncate,
then write the given lines. -/
def fsWrite : FS → List Char → List (Option Json) → FS
  | [], p, v => [(p, v)]
  | (q, w) :: rest, p, v =>
    if q = p then (p, v) :: rest else (q, w) :: fsWrite rest p v

/-- Python `open(path, "a")` followed by writes: append the given lines
to the current content (empty when the file does not exist). -/
def fsAppend (fs : FS) (p : List Char) (new : List (Option Json)) : FS :=
  fsWrite fs p (((fsLookup fs p).getD []) ++ new)

/-- Transcript file name for a context name (assistant.py lines 82, 94). -/
def ctxPath (context_name : List Char) : List Char :=
  context_name ++ chars ".jsonl"

/-- The context-store `create` operation (assistant.py lines 82–85):
open the transcript file for (over)writing and write one user Turn
then one model Turn. -/
def create (fs : FS) (base_file_name userText modelText : List Char) : FS :=
  fsWrite fs (ctxPath base_file_name)
    [some (turnJson (chars "user") userText),
     some (turnJson (chars "model") modelText)]

/-- The context-store `load` operation, the replay part of
`load_context` (assistant.py lines 93–110): `none` when no transcript
file exists, otherwise every stored line parsed independently with
malformed lines skipped. -/
def load_context (fs : FS) (context_name : List Char) : Option (List Json) :=
  match fsLookup fs (ctxPath context_name) with
  | none => none
  | some ls => some (ls.filterMap parseLine)

/-- The filesystem effect of `load_context` up to the interactive chat
loop: looking up a context performs no write; on a missing transcript
the handler prints and returns (assistant.py lines 95–97). -/
def load_context_step (fs : FS) (context_name : List Char) :
    FS × Option (List Json) :=
  (fs, load_context fs context_name)

/-- The context-store `append` operation, one chat round of
`load_context` (assistant.py lines 122–124): open the transcript file
in append mode and write one user Turn then one model Turn. -/
def append_turns (fs : FS) (context_name userText modelText : List Char) : FS :=
  fsAppend fs (ctxPath context_name)
    [some (turnJson (chars "user") userText),
     some (turnJson (chars "model") modelText)]

/-- A sequence of `append` calls on one context, in order. -/
def append_run (fs : FS) (context_name : List Char)
    (rounds : List (List Char × List Char)) : FS :=
  rounds.foldl (fun s r => append_turns s context_name r.1 r.2) fs

/-- The two transcript lines one chat round appends. -/
def roundLines (r : List Char × List Char) : List (Option Json) :=
  [some (turnJson (chars "user") r.1), some (turnJson (chars "model") r.2)]

/-- The two Turns one chat round contributes to a replayed history. -/
def roundTurns (r : List Char × List Char) : List Json :=
  [turnJson (chars "user") r.1, turnJson (chars "model") r.2]

/-- Model of `list_contexts` (assistant.py lines 87–91) applied to the
directory listing: report, in listing order, each file whose name ends
with `.jsonl`, printed as `file.replace(".jsonl", "")`. -/
def list_contexts (files : List (List Char)) : List (List Char) :=
  files.filterMap (fun f =>
    if endsWith (chars ".jsonl") f then some (removeAll (chars ".jsonl") f)
    else none)

/-- The action the main loop dispatches to (assistant.py lines 191–206). -/
inductive CmdAction where
  | nop : CmdAction
  | help : CmdAction
  | usage (which : List Char) : CmdAction
  | generate (arg : List Char) : CmdAction
  | select (arg : List Char) : CmdAction
  | listCtx : CmdAction
  | testbench (arg : List Char) : CmdAction
  | test (arg : List Char) : CmdAction
  | quit : CmdAction
  | unknown (cmd : List Char) : CmdAction
deriving DecidableEq

/-- The canonical form the main loop computes from an input line:
`input(">>> ").strip().lower()` (assistant.py line 193). -/
def canon (line : List Char) : List Char :=
  (pyStrip line).map pyLower

/-- Python `cmd.split(maxsplit=1)[1]` for a stripped `cmd` (assistant.py
lines 58, 129, 162): the remainder after the first whitespace run. -/
def splitArg (cmd : List Char) : List Char :=
  (cmd.dropWhile (fun c => !pyIsSpace c)).dropWhile pyIsSpace

/-- The command dispatcher (assistant.py lines 191–206, with the
argument extraction of the handlers at lines 58–63, 129–134, 162–167
and 198 inlined).  The whole line is stripped and lower-cased before
any parsing. -/
def dispatch (line : List Char) : CmdAction :=
  let cmd := canon line
  if cmd = [] then CmdAction.nop
  else if cmd = chars "help" ∨ cmd = chars "h" ∨ cmd = chars "?" then CmdAction.help
  else if startsWith (chars "generate ") cmd then
    (if splitArg cmd = [] then CmdAction.usage (chars "generate")
     else CmdAction.generate (splitArg cmd))
  else if startsWith (chars "select ") cmd then
    CmdAction.select (pyStrip (cmd.drop 7))
  else if cmd = chars "list contexts" ∨ cmd = chars "list" ∨ cmd = chars "ls" then
    CmdAction.listCtx
  else if startsWith (chars "testbench ") cmd then
    (if splitArg cmd = [] then CmdAction.usage (chars "testbench")
     else CmdAction.testbench (splitArg cmd))
  else if startsWith (chars "test ") cmd then
    (if splitArg cmd = [] then CmdAction.usage (chars "test")
     else CmdAction.test (splitArg cmd))
  else if cmd = chars "exit" ∨ cmd = chars "quit" then CmdAction.quit
  else CmdAction.unknown cmd

/-! Basic facts about the context-directory map and the line parser. -/

theorem fsLookup_fsWrite_self (fs : FS) (p : List Char)
    (v : List (Option Json)) : fsLookup (fsWrite fs p v) p = some v := by
  induction fs with
  | nil => simp [fsWrite, fsLookup]
  | cons hd tl ih =>
    obtain ⟨q, w⟩ := hd
    by_cases hq : q = p
    · simp [fsWrite, fsLookup, hq]
    · simp [fsWrite, fsLookup, hq, ih]

theorem processEntry_turnJson (role text : List Char) :
    processEntry (turnJson role text) = some (turnJson role text) := rfl

theorem parseLine_turnJson (role text : List Char) :
    parseLine (some (turnJson role text)) = some (turnJson role text) := rfl

theorem fsLookup_fsAppend_self (fs : FS) (p : List Char)
    (new : List (Option Json)) :
    fsLookup (fsAppend fs p new) p = some (((fsLookup fs p).getD []) ++ new) := by
  simp [fsAppend, fsLookup_fsWrite_self]

/-- C1: for every subject name, `create` (writing one user Turn then one
model Turn) followed by `load` on the same name returns exactly the two
Turns that were written, in that order. -/
theorem create_then_load (fs : FS) (base_file_name userText modelText : List Char) :
    load_context (create fs base_file_name userText modelText) base_file_name =
      some [turnJson (chars "user") userText, turnJson (chars "model") modelText] := by
  simp [load_context, create, fsLookup_fsWrite_self, List.filterMap, parseLine_turnJson]

/-- C4: for every name for which no transcript file exists, `load` fails
with `NotFound` (here: result `none`), returns no Turns, and the context
directory is left unmodified. -/
theorem load_notfound (fs : FS) (context_name : List Char)
    (h : fsLookup fs (ctxPath context_name) = none) :
    load_context_step fs context_name = (fs, none) := by
  simp [load_context_step, load_context, h]

/-- Witness for C4 at a concrete input: the empty context directory and
the name `adder`. -/
theorem load_notfound_witness :
    load_context_step ([] : FS) (chars "adder") = (([] : FS), none) :=
  load_notfound ([] : FS) (chars "adder") rfl

/-- C6: `create` on a name whose context file already exists silently
overwrites that file — no error, no numeric suffix — and the resulting
file holds exactly two lines, the user Turn then the model Turn, so a
subsequent `load` returns exactly those two Turns. -/
theorem create_overwrites (fs : FS) (base_file_name userText modelText : List Char)
    (old : List (Option Json))
    (hexists : fsLookup fs (ctxPath base_file_name) = some old) :
    fsLookup (create fs base_file_name userText modelText) (ctxPath base_file_name) =
      some [some (turnJson (chars "user") userText),
            some (turnJson (chars "model") modelText)] ∧
    load_context (create fs base_file_name userText modelText) base_file_name =
      some [turnJson (chars "user") userText, turnJson (chars "model") modelText] := by
  constructor
  · simp [create, fsLookup_fsWrite_self]
  · simp [load_context, create, fsLookup_fsWrite_self, List.filterMap, parseLine_turnJson]

/-- Witness for C6 at a concrete input: a directory already holding a
transcript named `gen_adder` with one stale line. -/
theorem create_overwrites_witness :
    fsLookup (create [(ctxPath (chars "gen_adder"), [none])]
        (chars "gen_adder") (chars "u") (chars "m")) (ctxPath (chars "gen_adder")) =
      some [some (turnJson (chars "user") (chars "u")),
            some (turnJson (chars "model") (chars "m"))] ∧
    load_context (create [(ctxPath (chars "gen_adder"), [none])]
        (chars "gen_adder") (chars "u") (chars "m")) (chars "gen_adder") =
      some [turnJson (chars "user") (chars "u"), turnJson (chars "model") (chars "m")] :=
  create_overwrites [(ctxPath (chars "gen_adder"), [none])]
    (chars "gen_adder") (chars "u") (chars "m") [none] rfl

/-- C8: the loader accepts both legacy record shapes — a record with a
flat `text` field and a record already in the nested `parts` shape —
and yields for either a Turn in the nested shape with the same role and
text. -/
theorem loader_accepts_both_shapes (role text : List Char) :
    processEntry (Json.obj [(chars "role", Json.str role),
                            (chars "text", Json.str text)]) =
      some (turnJson role text) ∧
    processEntry (turnJson role text) = some (turnJson role text) :=
  ⟨rfl, rfl⟩

theorem fsLookup_append_run (context_name : List Char)
    (rounds : List (List Char × List Char)) :
    ∀ (fs : FS) (L : List (Option Json)),
      fsLookup fs (ctxPath context_name) = some L →
      fsLookup (append_run fs context_name rounds) (ctxPath context_name) =
        some (L ++ (rounds.map roundLines).flatten) := by
  induction rounds with
  | nil => intro fs L h; simpa [append_run] using h
  | cons r rs ih =>
    intro fs L h
    have h1 : fsLookup (append_turns fs context_name r.1 r.2) (ctxPath context_name)
        = some (L ++ roundLines r) := by
      simp [append_turns, fsLookup_fsAppend_self, h, roundLines]
    have h2 := ih (append_turns fs context_name r.1 r.2) (L ++ roundLines r) h1
    simpa [append_run, List.append_assoc] using h2

theorem filterMap_roundLines (r : List Char × List Char) :
    (roundLines r).filterMap parseLine = roundTurns r := rfl

/-- C2: for every sequence of `append` calls on an existing transcript,
the file afterwards is the old content followed by the appended lines
(append-only: nothing is rewritten or deleted), and a subsequent `load`
returns the old Turns followed by all appended Turns in call order. -/
theorem append_only_replay (fs : FS) (context_name : List Char)
    (L : List (Option Json)) (rounds : List (List Char × List Char))
    (h : fsLookup fs (ctxPath context_name) = some L) :
    fsLookup (append_run fs context_name rounds) (ctxPath context_name) =
      some (L ++ (rounds.map roundLines).flatten) ∧
    load_context (append_run fs context_name rounds) context_name =
      some (L.filterMap parseLine ++ (rounds.map roundTurns).flatten) := by
  have h1 := fsLookup_append_run context_name rounds fs L h
  refine ⟨h1, ?_⟩
  simp [load_context, h1, List.filterMap_append, List.filterMap_flatten,
    List.map_map, Function.comp, filterMap_roundLines]
  exact congrArg List.flatten (List.map_congr_left (fun r _ => filterMap_roundLines r))

/-- Witness for C2 at a concrete input: one append round on an existing
empty transcript named `c`. -/
theorem append_only_replay_witness :
    load_context (append_run [(ctxPath (chars "c"), ([] : List (Option Json)))]
        (chars "c") [(chars "a", chars "b")]) (chars "c") =
      some [turnJson (chars "user") (chars "a"), turnJson (chars "model") (chars "b")] := by
  simpa using (append_only_replay [(ctxPath (chars "c"), ([] : List (Option Json)))]
    (chars "c") [] [(chars "a", chars "b")] rfl).2

theorem filterMap_length_all_some {α β : Type} (f : α → Option β)
    (xs : List α) (h : ∀ l ∈ xs, (f l).isSome) :
    (xs.filterMap f).length = xs.length := by
  induction xs with
  | nil => simp
  | cons a as ih =>
    have ha : (f a).isSome := h a (by simp)
    obtain ⟨b, hb⟩ := Option.isSome_iff_exists.mp ha
    simp [List.filterMap_cons, hb, ih (fun l hl => h l (by simp [hl]))]

/-- C3: a transcript file containing one malformed line among N
well-formed lines yields via `load` exactly the N Turns parsed from the
well-formed lines, in order, and does not fail: each line is parsed
independently and the malformed line is silently skipped. -/
theorem malformed_line_skipped (fs : FS) (context_name : List Char)
    (pre post : List (Option Json)) (badLine : Option Json)
    (hfile : fsLookup fs (ctxPath context_name) = some (pre ++ badLine :: post))
    (hbad : parseLine badLine = none)
    (hpre : ∀ l ∈ pre, (parseLine l).isSome)
    (hpost : ∀ l ∈ post, (parseLine l).isSome) :
    load_context fs context_name =
      some (pre.filterMap parseLine ++ post.filterMap parseLine) ∧
    (pre.filterMap parseLine ++ post.filterMap parseLine).length =
      pre.length + post.length := by
  constructor
  · simp [load_context, hfile, List.filterMap_append, List.filterMap_cons, hbad]
  · simp [List.length_append, filterMap_length_all_some _ _ hpre,
      filterMap_length_all_some _ _ hpost]

/-- Witness for C3 at a concrete input: a transcript named `c` holding
one well-formed Turn line, one unparseable line, and another
well-formed Turn line; `load` returns exactly the two Turns. -/
theorem malformed_line_skipped_witness :
    load_context [(ctxPath (chars "c"),
        [some (turnJson (chars "user") (chars "a")), none,
         some (turnJson (chars "model") (chars "b"))])] (chars "c") =
      some [turnJson (chars "user") (chars "a"), turnJson (chars "model") (chars "b")] := by
  simpa using (malformed_line_skipped
    [(ctxPath (chars "c"),
        [some (turnJson (chars "user") (chars "a")), none,
         some (turnJson (chars "model") (chars "b"))])] (chars "c")
    [some (turnJson (chars "user") (chars "a"))]
    [some (turnJson (chars "model") (chars "b"))] none rfl rfl
    (by decide) (by decide)).1

/-! Correctness of `get_unique_filename`: the decimal rendering is
injective, so the candidate paths are pairwise distinct and the loop
finds a free one within `ex.length + 1` tries. -/

theorem char_toNat_ofNat_small (n : Nat) (h : n < 55296) :
    (Char.ofNat n).toNat = n := by
  simp [Char.ofNat, Nat.isValidChar, h, Char.ofNatAux, Char.toNat,
    UInt32.toNat, BitVec.toNat_ofNatLt]

/-- Decimal decoding with an accumulator, a retraction of `natDecimal`. -/
def decodeAux (acc : Nat) : List Char → Nat
  | [] => acc
  | c :: cs => decodeAux (acc * 10 + (c.toNat - 48)) cs

theorem decodeAux_nil (acc : Nat) : decodeAux acc [] = acc := rfl

theorem decodeAux_cons (acc : Nat) (c : Char) (cs : List Char) :
    decodeAux acc (c :: cs) = decodeAux (acc * 10 + (c.toNat - 48)) cs := rfl

theorem decodeAux_append (xs ys : List Char) :
    ∀ acc, decodeAux acc (xs ++ ys) = decodeAux (decodeAux acc xs) ys := by
  induction xs with
  | nil => intro acc; rfl
  | cons c cs ih =>
    intro acc
    rw [List.cons_append, decodeAux_cons, decodeAux_cons, ih]

theorem natDecimal_small (n : Nat) (h : n < 10) :
    natDecimal n = [Char.ofNat (48 + n)] := by
  unfold natDecimal
  simp [h]

theorem natDecimal_large (n : Nat) (h : ¬n < 10) :
    natDecimal n = natDecimal (n / 10) ++ [Char.ofNat (48 + n % 10)] := by
  conv_lhs => unfold natDecimal
  simp [h]

theorem decodeAux_natDecimal (n : Nat) :
    ∀ acc, decodeAux acc (natDecimal n) = acc * 10 ^ (natDecimal n).length + n := by
  induction n using Nat.strong_induction_on with
  | _ n ih =>
    intro acc
    by_cases h : n < 10
    · rw [natDecimal_small n h, decodeAux_cons,
        char_toNat_ofNat_small (48 + n) (by omega), decodeAux_nil]
      simp only [List.length_cons, List.length_nil, pow_succ, pow_zero]
      omega
    · rw [natDecimal_large n h]
      rw [decodeAux_append]
      rw [ih (n / 10) (Nat.div_lt_self (by omega) (by omega)) acc]
      rw [decodeAux_cons, char_toNat_ofNat_small (48 + n % 10) (by omega), decodeAux_nil]
      simp only [List.length_append, List.length_cons, List.length_nil]
      have hmod := Nat.div_add_mod n 10
      have hsub : 48 + n % 10 - 48 = n % 10 := by omega
      rw [hsub]
      have hcalc : (acc * 10 ^ (natDecimal (n / 10)).length + n / 10) * 10 + n % 10 =
          acc * (10 ^ (natDecimal (n / 10)).length * 10) + (10 * (n / 10) + n % 10) := by
        ring
      rw [hcalc, hmod]
      rw [pow_succ]

theorem natDecimal_injective : Function.Injective natDecimal := by
  intro a b h
  have ha := decodeAux_natDecimal a 0
  have hb := decodeAux_natDecimal b 0
  rw [h] at ha
  simp at ha hb
  omega

theorem vFile_injective (base_name : List Char) (k₁ k₂ : Nat)
    (h : vFile base_name k₁ = vFile base_name k₂) : k₁ = k₂ := by
  unfold vFile at h
  have h1 := List.append_cancel_left h
  have h2 : natDecimal k₁ ++ chars ".v" = natDecimal k₂ ++ chars ".v" :=
    List.tail_eq_of_cons_eq h1
  exact natDecimal_injective (List.append_cancel_right h2)

theorem candidate_injective (base_name folder : List Char) (k₁ k₂ : Nat)
    (h : pjoin folder (vFile base_name k₁) = pjoin folder (vFile base_name k₂)) :
    k₁ = k₂ := by
  unfold pjoin at h
  exact vFile_injective base_name k₁ k₂
    (List.tail_eq_of_cons_eq (List.append_cancel_left h))

theorem gufLoop_success (base_name folder : List Char) (ex : List (List Char)) :
    ∀ (fuel counter : Nat),
      (∃ k, counter ≤ k ∧ k < counter + fuel ∧
        pjoin folder (vFile base_name k) ∉ ex) →
      ∃ p k, gufLoop base_name folder ex counter fuel = some p ∧
        p = pjoin folder (vFile base_name k) ∧ p ∉ ex ∧ counter ≤ k ∧
        (∀ j, counter ≤ j → j < k → pjoin folder (vFile base_name j) ∈ ex) := by
  intro fuel
  induction fuel with
  | zero => intro counter ⟨k, h1, h2, _⟩; omega
  | succ fuel ih =>
    intro counter hex
    by_cases hmem : pjoin folder (vFile base_name counter) ∈ ex
    · obtain ⟨k, hk1, hk2, hk3⟩ := hex
      have hkne : k ≠ counter := fun he => hk3 (he ▸ hmem)
      obtain ⟨p, k', hp1, hp2, hp3, hp4, hp5⟩ :=
        ih (counter + 1) ⟨k, by omega, by omega, hk3⟩
      refine ⟨p, k', ?_, hp2, hp3, by omega, ?_⟩
      · simpa [gufLoop, hmem] using hp1
      · intro j hj1 hj2
        rcases Nat.eq_or_lt_of_le hj1 with he | hlt
        · exact he ▸ hmem
        · exact hp5 j hlt hj2
    · exact ⟨pjoin folder (vFile base_name counter), counter,
        by simp [gufLoop, hmem], rfl, hmem, le_refl _, fun j h1 h2 => by omega⟩

theorem exists_free_candidate (base_name folder : List Char)
    (ex : List (List Char)) :
    ∃ k, 1 ≤ k ∧ k < 1 + (ex.length + 1) ∧
      pjoin folder (vFile base_name k) ∉ ex := by
  by_contra hcon
  push_neg at hcon
  have hinj : Function.Injective (fun i => pjoin folder (vFile base_name (i + 1))) := by
    intro a b hab
    have := candidate_injective base_name folder (a + 1) (b + 1) hab
    omega
  have hnd : ((List.range (ex.length + 1)).map
      (fun i => pjoin folder (vFile base_name (i + 1)))).Nodup :=
    List.Nodup.map hinj (List.nodup_range _)
  have hsub : ((List.range (ex.length + 1)).map
      (fun i => pjoin folder (vFile base_name (i + 1)))) ⊆ ex := by
    intro x hx
    obtain ⟨i, hi, rfl⟩ := List.mem_map.mp hx
    have hi' := List.mem_range.mp hi
    exact hcon (i + 1) (by omega) (by omega)
  have hle := (List.Nodup.subperm hnd hsub).length_le
  simp at hle

theorem guf_finds_free (base_name folder : List Char) (ex : List (List Char)) :
    ∃ p, get_unique_filename base_name folder ex = some p ∧ p ∉ ex ∧
      ((pjoin folder (base_name ++ chars ".v") ∉ ex ∧
        p = pjoin folder (base_name ++ chars ".v")) ∨
       (pjoin folder (base_name ++ chars ".v") ∈ ex ∧
        ∃ k, 1 ≤ k ∧ p = pjoin folder (vFile base_name k) ∧
          (∀ j, 1 ≤ j → j < k → pjoin folder (vFile base_name j) ∈ ex))) := by
  by_cases hb : pjoin folder (base_name ++ chars ".v") ∈ ex
  · obtain ⟨p, k, hp1, hp2, hp3, hp4, hp5⟩ :=
      gufLoop_success base_name folder ex (ex.length + 1) 1
        (exists_free_candidate base_name folder ex)
    refine ⟨p, ?_, hp3, Or.inr ⟨hb, k, hp4, hp2, hp5⟩⟩
    simpa [get_unique_filename, hb] using hp1
  · exact ⟨pjoin folder (base_name ++ chars ".v"),
      by simp [get_unique_filename, hb], hb, Or.inl ⟨hb, rfl⟩⟩

/-- C5: for every base name and every set of already-existing paths,
`get_unique_filename` returns a path not yet existing, formed as
`<base>.v` when that is free and otherwise `<base>_<k>.v` for the
smallest `k ≥ 1` whose path is free; consequently a second call after
the first returned path has been created never returns (hence never
overwrites) the first path. -/
theorem get_unique_filename_spec (base_name folder : List Char)
    (ex : List (List Char)) :
    ∃ p, get_unique_filename base_name folder ex = some p ∧ p ∉ ex ∧
      ((pjoin folder (base_name ++ chars ".v") ∉ ex ∧
        p = pjoin folder (base_name ++ chars ".v")) ∨
       (pjoin folder (base_name ++ chars ".v") ∈ ex ∧
        ∃ k, 1 ≤ k ∧ p = pjoin folder (vFile base_name k) ∧
          (∀ j, 1 ≤ j → j < k → pjoin folder (vFile base_name j) ∈ ex))) ∧
      (∀ p', get_unique_filename base_name folder (p :: ex) = some p' → p' ≠ p) := by
  obtain ⟨p, h1, h2, h3⟩ := guf_finds_free base_name folder ex
  refine ⟨p, h1, h2, h3, ?_⟩
  intro p' hp'
  obtain ⟨q, hq1, hq2, _⟩ := guf_finds_free base_name folder (p :: ex)
  have : p' = q := by rw [hp'] at hq1; exact Option.some_inj.mp hq1
  subst this
  intro he
  exact hq2 (he ▸ List.mem_cons_self p ex)

/-- Witness for C5: the theorem instantiated at the concrete base name
`gen_adder`, folder `proj`, and one existing file `proj/gen_adder.v`. -/
theorem get_unique_filename_spec_witness :
    ∃ p, get_unique_filename (chars "gen_adder") (chars "proj")
        [pjoin (chars "proj") (chars "gen_adder" ++ chars ".v")] = some p ∧
      p ∉ [pjoin (chars "proj") (chars "gen_adder" ++ chars ".v")] ∧
      ((pjoin (chars "proj") (chars "gen_adder" ++ chars ".v") ∉
          [pjoin (chars "proj") (chars "gen_adder" ++ chars ".v")] ∧
        p = pjoin (chars "proj") (chars "gen_adder" ++ chars ".v")) ∨
       (pjoin (chars "proj") (chars "gen_adder" ++ chars ".v") ∈
          [pjoin (chars "proj") (chars "gen_adder" ++ chars ".v")] ∧
        ∃ k, 1 ≤ k ∧ p = pjoin (chars "proj") (vFile (chars "gen_adder") k) ∧
          (∀ j, 1 ≤ j → j < k →
            pjoin (chars "proj") (vFile (chars "gen_adder") j) ∈
              [pjoin (chars "proj") (chars "gen_adder" ++ chars ".v")]))) ∧
      (∀ p', get_unique_filename (chars "gen_adder") (chars "proj")
          (p :: [pjoin (chars "proj") (chars "gen_adder" ++ chars ".v")]) = some p' →
        p' ≠ p) :=
  get_unique_filename_spec (chars "gen_adder") (chars "proj")
    [pjoin (chars "proj") (chars "gen_adder" ++ chars ".v")]

/-! Characterization of `sanitize_name`: the specification-side
maximal-run relation, word-character closure, lower-casing, and the
collision of distinct subjects with equal normal forms. -/

/-- Specification-side relation, following the spec's words: the output
is obtained from the input by keeping each word character and replacing
every maximal run of non-word characters by a single underscore
(maximality is enforced by requiring the remainder to begin with a word
character or be empty). -/
inductive RunSquashed : List Char → List Char → Prop where
  | nil : RunSquashed [] []
  | word (c : Char) (l r : List Char) : isWordChar c = true →
      RunSquashed l r → RunSquashed (c :: l) (c :: r)
  | nonword (rn rest r : List Char) : rn ≠ [] →
      (∀ d ∈ rn, isWordChar d = false) →
      (∀ d ∈ rest.head?, isWordChar d = true) →
      RunSquashed rest r → RunSquashed (rn ++ rest) ('_' :: r)

theorem squashNonWord_nil : squashNonWord [] = [] := by
  unfold squashNonWord
  rfl

theorem squashNonWord_cons_word (c : Char) (cs : List Char)
    (h : isWordChar c = true) :
    squashNonWord (c :: cs) = c :: squashNonWord cs := by
  conv_lhs => unfold squashNonWord
  simp [h]

theorem squashNonWord_cons_nonword (c : Char) (cs : List Char)
    (h : isWordChar c = false) :
    squashNonWord (c :: cs) =
      '_' :: squashNonWord (cs.dropWhile (fun d => !isWordChar d)) := by
  conv_lhs => unfold squashNonWord
  simp [h]

theorem dropWhile_head?_false {α : Type} (p : α → Bool) :
    ∀ (l : List α) (x : α), (l.dropWhile p).head? = some x → p x = false := by
  intro l
  induction l with
  | nil => intro x hx; simp [List.dropWhile] at hx
  | cons a as ih =>
    intro x hx
    rw [List.dropWhile_cons] at hx
    by_cases hp : p a = true
    · rw [if_pos hp] at hx
      exact ih x hx
    · rw [if_neg hp] at hx
      simp at hx
      rw [← hx]
      exact Bool.eq_false_iff.mpr hp

theorem runSquashed_squashNonWord_bounded (n : Nat) :
    ∀ (l : List Char), l.length ≤ n → RunSquashed l (squashNonWord l) := by
  induction n with
  | zero =>
    intro l hl
    have hnil : l = [] := List.eq_nil_of_length_eq_zero (by omega)
    subst hnil
    rw [squashNonWord_nil]
    exact RunSquashed.nil
  | succ n ih =>
    intro l hl
    cases l with
    | nil =>
      rw [squashNonWord_nil]
      exact RunSquashed.nil
    | cons c cs =>
      simp only [List.length_cons] at hl
      by_cases hw : isWordChar c = true
      · rw [squashNonWord_cons_word c cs hw]
        exact RunSquashed.word c cs _ hw (ih cs (by omega))
      · have hwf : isWordChar c = false := Bool.eq_false_iff.mpr hw
        rw [squashNonWord_cons_nonword c cs hwf]
        have hpc : (fun d => !isWordChar d) c = true := by simp [hwf]
        have htw : (c :: cs).takeWhile (fun d => !isWordChar d) =
            c :: cs.takeWhile (fun d => !isWordChar d) :=
          List.takeWhile_cons_of_pos hpc
        have hdw : (c :: cs).dropWhile (fun d => !isWordChar d) =
            cs.dropWhile (fun d => !isWordChar d) := by
          rw [List.dropWhile_cons, if_pos hpc]
        have hlen : ((c :: cs).dropWhile (fun d => !isWordChar d)).length ≤ n := by
          rw [hdw]
          have := (List.dropWhile_sublist (l := cs) (fun d => !isWordChar d)).length_le
          omega
        have hmain := RunSquashed.nonword
          ((c :: cs).takeWhile (fun d => !isWordChar d))
          ((c :: cs).dropWhile (fun d => !isWordChar d))
          (squashNonWord ((c :: cs).dropWhile (fun d => !isWordChar d)))
          (by rw [htw]; exact List.cons_ne_nil c _)
          (by intro d hd
              have := List.mem_takeWhile_imp hd
              simpa using this)
          (by intro d hd
              have := dropWhile_head?_false (fun d => !isWordChar d) (c :: cs) d
                (Option.mem_def.mp hd)
              simpa using this)
          (ih _ hlen)
        rw [List.takeWhile_append_dropWhile] at hmain
        rw [hdw] at hmain
        exact hmain

theorem mem_squashNonWord_word_bounded (n : Nat) :
    ∀ (l : List Char) (c : Char), l.length ≤ n → c ∈ squashNonWord l →
      isWordChar c = true := by
  induction n with
  | zero =>
    intro l c hl hc
    have hnil : l = [] := List.eq_nil_of_length_eq_zero (by omega)
    subst hnil
    rw [squashNonWord_nil] at hc
    simp at hc
  | succ n ih =>
    intro l c hl hc
    cases l with
    | nil => rw [squashNonWord_nil] at hc; simp at hc
    | cons a as =>
      simp only [List.length_cons] at hl
      by_cases hw : isWordChar a = true
      · rw [squashNonWord_cons_word a as hw] at hc
        rcases List.mem_cons.mp hc with he | hm
        · exact he ▸ hw
        · exact ih as c (by omega) hm
      · have hwf : isWordChar a = false := Bool.eq_false_iff.mpr hw
        rw [squashNonWord_cons_nonword a as hwf] at hc
        rcases List.mem_cons.mp hc with he | hm
        · subst he; decide
        · have hlen : (as.dropWhile (fun d => !isWordChar d)).length ≤ n := by
            have := (List.dropWhile_sublist (l := as) (fun d => !isWordChar d)).length_le
            omega
          exact ih _ c hlen hm

theorem mem_squashNonWord_orig_bounded (n : Nat) :
    ∀ (l : List Char) (c : Char), l.length ≤ n → c ∈ squashNonWord l →
      c = '_' ∨ c ∈ l := by
  induction n with
  | zero =>
    intro l c hl hc
    have hnil : l = [] := List.eq_nil_of_length_eq_zero (by omega)
    subst hnil
    rw [squashNonWord_nil] at hc
    simp at hc
  | succ n ih =>
    intro l c hl hc
    cases l with
    | nil => rw [squashNonWord_nil] at hc; simp at hc
    | cons a as =>
      simp only [List.length_cons] at hl
      by_cases hw : isWordChar a = true
      · rw [squashNonWord_cons_word a as hw] at hc
        rcases List.mem_cons.mp hc with he | hm
        · exact Or.inr (he ▸ List.mem_cons_self a as)
        · rcases ih as c (by omega) hm with hu | hmem
          · exact Or.inl hu
          · exact Or.inr (List.mem_cons_of_mem a hmem)
      · have hwf : isWordChar a = false := Bool.eq_false_iff.mpr hw
        rw [squashNonWord_cons_nonword a as hwf] at hc
        rcases List.mem_cons.mp hc with he | hm
        · exact Or.inl he
        · have hlen : (as.dropWhile (fun d => !isWordChar d)).length ≤ n := by
            have := (List.dropWhile_sublist (l := as) (fun d => !isWordChar d)).length_le
            omega
          rcases ih _ c hlen hm with hu | hmem
          · exact Or.inl hu
          · exact Or.inr (List.mem_cons_of_mem a
              ((List.dropWhile_sublist (fun d => !isWordChar d)).subset hmem))

theorem asciiUpper_pyLower (c : Char) : asciiUpper (pyLower c) = false := by
  unfold pyLower asciiUpper
  by_cases h : 65 ≤ c.toNat ∧ c.toNat ≤ 90
  · rw [if_pos h, char_toNat_ofNat_small _ (by omega)]
    simp only [Bool.and_eq_false_iff, decide_eq_false_iff_not]
    omega
  · rw [if_neg h]
    simp only [Bool.and_eq_false_iff, decide_eq_false_iff_not]
    omega

/-- C7: name sanitization replaces every maximal run of non-word
characters of the stripped, lower-cased subject with a single
underscore (relation `RunSquashed`); every character of the result is a
word character (filesystem-safe) and none is an upper-case letter; and
distinct subjects can normalize identically (`Adder` and `adder`),
with no disambiguation performed for the context store. -/
theorem sanitize_name_spec :
    (∀ name, RunSquashed ((pyStrip name).map pyLower) (sanitize_name name)) ∧
    (∀ name c, c ∈ sanitize_name name → isWordChar c = true) ∧
    (∀ name c, c ∈ sanitize_name name → asciiUpper c = false) ∧
    (chars "Adder" ≠ chars "adder" ∧
      sanitize_name (chars "Adder") = sanitize_name (chars "adder")) := by
  refine ⟨?_, ?_, ?_, ?_, ?_⟩
  · intro name
    exact runSquashed_squashNonWord_bounded ((pyStrip name).map pyLower).length _
      (le_refl _)
  · intro name c hc
    exact mem_squashNonWord_word_bounded ((pyStrip name).map pyLower).length _ c
      (le_refl _) hc
  · intro name c hc
    rcases mem_squashNonWord_orig_bounded ((pyStrip name).map pyLower).length _ c
        (le_refl _) hc with hu | hmem
    · subst hu; decide
    · obtain ⟨d, _, rfl⟩ := List.mem_map.mp hmem
      exact asciiUpper_pyLower d
  · decide
  · simp [sanitize_name, squashNonWord, pyStrip, pyLower, pyIsSpace, isWordChar, chars]

/-! The `list contexts` report: the code removes every occurrence of
the substring `.jsonl`, which coincides with removing the suffix only
when the stem itself does not contain `.jsonl`. -/

theorem startsWith_eq_true_iff : ∀ (p l : List Char),
    startsWith p l = true ↔ p <+: l := by
  intro p
  induction p with
  | nil => intro l; simp [startsWith]
  | cons a as ih =>
    intro l
    cases l with
    | nil => simp [startsWith]
    | cons b bs =>
      by_cases hab : a = b
      · subst hab
        simp [startsWith, ih, List.cons_prefix_cons]
      · simp [startsWith, hab, List.cons_prefix_cons]

theorem containsSub_false_startsWith (pat : List Char) :
    ∀ l, containsSub pat l = false → startsWith pat l = false := by
  intro l h
  cases l with
  | nil =>
    cases pat with
    | nil => simp [containsSub] at h
    | cons p ps => rfl
  | cons c cs =>
    rw [containsSub] at h
    exact (Bool.or_eq_false_iff.mp h).1

theorem startsWith_containsSub (pat : List Char) :
    ∀ l, startsWith pat l = true → containsSub pat l = true := by
  intro l h
  cases l with
  | nil =>
    cases pat with
    | nil => rfl
    | cons p ps => exact absurd h (by simp [startsWith])
  | cons c cs =>
    rw [containsSub, h, Bool.true_or]

theorem jsonl_not_prefix_extend (stem : List Char) (hne : stem ≠ [])
    (hcs : containsSub (chars ".jsonl") stem = false) :
    startsWith (chars ".jsonl") (stem ++ chars ".jsonl") = false := by
  by_contra hsw
  have hsw' : startsWith (chars ".jsonl") (stem ++ chars ".jsonl") = true := by
    simpa using hsw
  have hpre : chars ".jsonl" <+: stem ++ chars ".jsonl" :=
    (startsWith_eq_true_iff _ _).mp hsw'
  have h1 : chars ".jsonl" = List.take 6 (stem ++ chars ".jsonl") := by
    have := List.prefix_iff_eq_take.mp hpre
    simpa using this
  by_cases hlen : 6 ≤ stem.length
  · have h2 : chars ".jsonl" = List.take 6 stem := by
      rw [h1, List.take_append_of_le_length hlen]
    have h3 : chars ".jsonl" <+: stem := by
      rw [List.prefix_iff_eq_take]
      simpa using h2
    have h4 := startsWith_containsSub (chars ".jsonl") stem
      ((startsWith_eq_true_iff _ _).mpr h3)
    rw [hcs] at h4
    exact Bool.false_ne_true h4
  · have hkk : stem = List.take stem.length (chars ".jsonl") := by
      have h2 : List.take stem.length (chars ".jsonl") =
          List.take stem.length (stem ++ chars ".jsonl") := by
        calc List.take stem.length (chars ".jsonl")
            = List.take stem.length (List.take 6 (stem ++ chars ".jsonl")) := by
              rw [← h1]
          _ = List.take (min stem.length 6) (stem ++ chars ".jsonl") :=
              List.take_take _ _ _
          _ = List.take stem.length (stem ++ chars ".jsonl") := by
              congr 1
              exact Nat.min_eq_left (by omega)
      rw [h2, List.take_left]
    have hlen1 : 1 ≤ stem.length := by
      cases stem with
      | nil => exact absurd rfl hne
      | cons a as => simp
    have hcase : stem.length = 1 ∨ stem.length = 2 ∨ stem.length = 3 ∨
        stem.length = 4 ∨ stem.length = 5 := by omega
    rcases hcase with h5 | h5 | h5 | h5 | h5 <;>
      rw [h5] at hkk <;> rw [hkk] at hsw' <;> revert hsw' <;> decide

theorem removeAll_cons_skip (pat : List Char) (c : Char) (cs : List Char)
    (h : ¬(startsWith pat (c :: cs) = true ∧ pat ≠ [])) :
    removeAll pat (c :: cs) = c :: removeAll pat cs := by
  conv_lhs => unfold removeAll
  rw [dif_neg h]

theorem removeAll_stem (stem : List Char)
    (h : containsSub (chars ".jsonl") stem = false) :
    removeAll (chars ".jsonl") (stem ++ chars ".jsonl") = stem := by
  induction stem with
  | nil =>
    rw [List.nil_append]
    simp [removeAll, chars, startsWith]
  | cons c cs ih =>
    have h2 : containsSub (chars ".jsonl") cs = false := by
      rw [containsSub] at h
      exact (Bool.or_eq_false_iff.mp h).2
    have h3 : startsWith (chars ".jsonl") ((c :: cs) ++ chars ".jsonl") = false :=
      jsonl_not_prefix_extend (c :: cs) (List.cons_ne_nil c cs) h
    rw [List.cons_append] at h3 ⊢
    rw [removeAll_cons_skip _ _ _ (by rw [h3]; simp)]
    rw [ih h2]

theorem startsWith_append_self : ∀ (p l : List Char),
    startsWith p (p ++ l) = true := by
  intro p
  induction p with
  | nil => intro l; rfl
  | cons a as ih => intro l; simp [startsWith, ih]

theorem endsWith_append_self (stem : List Char) :
    endsWith (chars ".jsonl") (stem ++ chars ".jsonl") = true := by
  unfold endsWith
  rw [List.reverse_append]
  exact startsWith_append_self _ _

theorem filterMap_ite_eq_filter_map {α β : Type} (p : α → Bool) (g : α → β)
    (l : List α) :
    l.filterMap (fun x => if p x then some (g x) else none) =
      (l.filter p).map g := by
  induction l with
  | nil => rfl
  | cons a as ih =>
    by_cases hp : p a = true
    · simp [List.filterMap_cons, List.filter_cons, hp, ih]
    · simp [List.filterMap_cons, List.filter_cons, hp, ih]

/-- C9 counterexample: on a directory holding the single file
`a.jsonl.jsonl` — which ends with the transcript suffix — the report is
`a`, not the suffix-stripped name `a.jsonl`, because the code removes
every occurrence of `.jsonl`, not only the suffix. -/
theorem list_contexts_counterexample :
    list_contexts [chars "a.jsonl.jsonl"] = [chars "a"] ∧
    list_contexts [chars "a.jsonl.jsonl"] ≠ [chars "a.jsonl"] := by
  have h : list_contexts [chars "a.jsonl.jsonl"] = [chars "a"] := by
    simp [list_contexts, removeAll, chars, startsWith, endsWith]
  exact ⟨h, by rw [h]; decide⟩

/-- C9 (amended): `list` reports, once per file and in listing order,
exactly the files whose names end with `.jsonl`, each printed with
every occurrence of the substring `.jsonl` removed; when the stem
contains no internal `.jsonl` this equals removing the suffix; files
without the suffix are not reported. -/
theorem list_contexts_spec (files : List (List Char)) :
    list_contexts files =
      (files.filter (fun f => endsWith (chars ".jsonl") f)).map
        (fun f => removeAll (chars ".jsonl") f) ∧
    (list_contexts files).length =
      (files.filter (fun f => endsWith (chars ".jsonl") f)).length ∧
    (∀ stem, containsSub (chars ".jsonl") stem = false →
      removeAll (chars ".jsonl") (stem ++ chars ".jsonl") = stem ∧
      endsWith (chars ".jsonl") (stem ++ chars ".jsonl") = true) := by
  have h1 : list_contexts files =
      (files.filter (fun f => endsWith (chars ".jsonl") f)).map
        (fun f => removeAll (chars ".jsonl") f) :=
    filterMap_ite_eq_filter_map _ _ files
  refine ⟨h1, ?_, ?_⟩
  · rw [h1, List.length_map]
  · intro stem h
    exact ⟨removeAll_stem stem h, endsWith_append_self stem⟩

/-- Witness for C9 (amended) at a concrete input: a directory holding
`gen_adder.jsonl` and a stray file `notes.txt`. -/
theorem list_contexts_spec_witness :
    list_contexts [chars "gen_adder.jsonl", chars "notes.txt"] =
      ([chars "gen_adder.jsonl", chars "notes.txt"].filter
        (fun f => endsWith (chars ".jsonl") f)).map
        (fun f => removeAll (chars ".jsonl") f) ∧
    removeAll (chars ".jsonl") (chars "gen_adder" ++ chars ".jsonl") =
      chars "gen_adder" := by
  refine ⟨(list_contexts_spec [chars "gen_adder.jsonl", chars "notes.txt"]).1, ?_⟩
  exact ((list_contexts_spec []).2.2 (chars "gen_adder") (by decide)).1

/-! The main-loop dispatcher: the whole input line is stripped and
lower-cased before parsing, so dispatching is invariant under that
canonicalization and every extracted argument is free of upper-case
letters. -/

theorem toNat_pyLower (c : Char) :
    (pyLower c).toNat =
      if 65 ≤ c.toNat ∧ c.toNat ≤ 90 then c.toNat + 32 else c.toNat := by
  unfold pyLower
  by_cases h : 65 ≤ c.toNat ∧ c.toNat ≤ 90
  · rw [if_pos h, if_pos h, char_toNat_ofNat_small _ (by omega)]
  · rw [if_neg h, if_neg h]

theorem pyLower_pyLower (c : Char) : pyLower (pyLower c) = pyLower c := by
  have hni : ¬(65 ≤ (pyLower c).toNat ∧ (pyLower c).toNat ≤ 90) := by
    rw [toNat_pyLower]
    by_cases h : 65 ≤ c.toNat ∧ c.toNat ≤ 90
    · rw [if_pos h]; omega
    · rw [if_neg h]; omega
  show (if 65 ≤ (pyLower c).toNat ∧ (pyLower c).toNat ≤ 90
      then Char.ofNat ((pyLower c).toNat + 32) else pyLower c) = pyLower c
  rw [if_neg hni]

theorem pyIsSpace_pyLower (c : Char) : pyIsSpace (pyLower c) = pyIsSpace c := by
  unfold pyIsSpace
  rw [toNat_pyLower, Bool.eq_iff_iff]
  simp only [Bool.or_eq_true, decide_eq_true_eq]
  split
  · omega
  · omega

theorem dropWhile_eq_self_of_head {α : Type} (p : α → Bool) (l : List α)
    (h : ∀ x, l.head? = some x → p x = false) : l.dropWhile p = l := by
  cases l with
  | nil => rfl
  | cons a as =>
    have hpa := h a rfl
    rw [List.dropWhile_cons, hpa]
    simp

theorem dropWhile_idem {α : Type} (p : α → Bool) (l : List α) :
    (l.dropWhile p).dropWhile p = l.dropWhile p := by
  apply dropWhile_eq_self_of_head
  intro x hx
  exact dropWhile_head?_false p l x hx

theorem getLast?_dropWhile {α : Type} (p : α → Bool) (l : List α)
    (h : l.dropWhile p ≠ []) : (l.dropWhile p).getLast? = l.getLast? := by
  obtain ⟨pre, hpre⟩ := List.dropWhile_suffix (l := l) p
  cases hg : (l.dropWhile p).getLast? with
  | none => exact absurd (List.getLast?_eq_none_iff.mp hg) h
  | some x =>
    conv_rhs => rw [← hpre]
    rw [List.getLast?_append, hg, Option.or_some]

theorem pyStrip_dropWhile (m : List Char) :
    (pyStrip m).dropWhile pyIsSpace = pyStrip m := by
  apply dropWhile_eq_self_of_head
  intro x hx
  unfold pyStrip at hx
  rw [List.head?_reverse] at hx
  have hne : ((m.dropWhile pyIsSpace).reverse).dropWhile pyIsSpace ≠ [] := by
    intro hnil
    rw [hnil] at hx
    simp at hx
  rw [getLast?_dropWhile _ _ hne, List.getLast?_reverse] at hx
  exact dropWhile_head?_false pyIsSpace m x hx

theorem pyStrip_idem (l : List Char) : pyStrip (pyStrip l) = pyStrip l := by
  show (((pyStrip l).dropWhile pyIsSpace).reverse.dropWhile pyIsSpace).reverse =
    pyStrip l
  rw [pyStrip_dropWhile l]
  unfold pyStrip
  rw [List.reverse_reverse, dropWhile_idem]

theorem dropWhile_comp_pyLower (m : List Char) :
    m.dropWhile (pyIsSpace ∘ pyLower) = m.dropWhile pyIsSpace := by
  induction m with
  | nil => rfl
  | cons a as ih =>
    rw [List.dropWhile_cons, List.dropWhile_cons, Function.comp_apply,
      pyIsSpace_pyLower]
    split
    · exact ih
    · rfl

theorem pyStrip_map_pyLower (l : List Char) :
    pyStrip (l.map pyLower) = (pyStrip l).map pyLower := by
  unfold pyStrip
  rw [List.dropWhile_map, dropWhile_comp_pyLower, ← List.map_reverse,
    List.dropWhile_map, dropWhile_comp_pyLower, ← List.map_reverse]

theorem canon_idem (l : List Char) : canon (canon l) = canon l := by
  unfold canon
  rw [pyStrip_map_pyLower, pyStrip_idem, List.map_map]
  apply List.map_congr_left
  intro a _
  exact pyLower_pyLower a

theorem dispatch_canon (line : List Char) :
    dispatch line = dispatch (canon line) := by
  unfold dispatch
  rw [canon_idem]

theorem mem_pyStrip {c : Char} {l : List Char} (h : c ∈ pyStrip l) : c ∈ l := by
  unfold pyStrip at h
  rw [List.mem_reverse] at h
  have h1 := (List.dropWhile_sublist _).subset h
  rw [List.mem_reverse] at h1
  exact (List.dropWhile_sublist _).subset h1

theorem mem_splitArg {c : Char} {cmd : List Char} (h : c ∈ splitArg cmd) :
    c ∈ cmd := by
  unfold splitArg at h
  exact (List.dropWhile_sublist _).subset ((List.dropWhile_sublist _).subset h)

theorem asciiUpper_canon {c : Char} {line : List Char} (h : c ∈ canon line) :
    asciiUpper c = false := by
  unfold canon at h
  obtain ⟨d, _, rfl⟩ := List.mem_map.mp h
  exact asciiUpper_pyLower d

theorem dispatch_select_arg (line : List Char) (a : List Char)
    (h : dispatch line = CmdAction.select a) :
    a = pyStrip ((canon line).drop 7) := by
  simp only [dispatch] at h
  split at h
  · exact CmdAction.noConfusion h
  · split at h
    · exact CmdAction.noConfusion h
    · split at h
      · split at h
        · exact CmdAction.noConfusion h
        · exact CmdAction.noConfusion h
      · split at h
        · injection h with h1
          exact h1.symm
        · split at h
          · exact CmdAction.noConfusion h
          · split at h
            · split at h
              · exact CmdAction.noConfusion h
              · exact CmdAction.noConfusion h
            · split at h
              · split at h
                · exact CmdAction.noConfusion h
                · exact CmdAction.noConfusion h
              · split at h
                · exact CmdAction.noConfusion h
                · exact CmdAction.noConfusion h

theorem dispatch_testbench_arg (line : List Char) (a : List Char)
    (h : dispatch line = CmdAction.testbench a) : a = splitArg (canon line) := by
  simp only [dispatch] at h
  split at h
  · exact CmdAction.noConfusion h
  · split at h
    · exact CmdAction.noConfusion h
    · split at h
      · split at h
        · exact CmdAction.noConfusion h
        · exact CmdAction.noConfusion h
      · split at h
        · exact CmdAction.noConfusion h
        · split at h
          · exact CmdAction.noConfusion h
          · split at h
            · split at h
              · exact CmdAction.noConfusion h
              · injection h with h1
                exact h1.symm
            · split at h
              · split at h
                · exact CmdAction.noConfusion h
                · exact CmdAction.noConfusion h
              · split at h
                · exact CmdAction.noConfusion h
                · exact CmdAction.noConfusion h

theorem dispatch_test_arg (line : List Char) (a : List Char)
    (h : dispatch line = CmdAction.test a) : a = splitArg (canon line) := by
  simp only [dispatch] at h
  split at h
  · exact CmdAction.noConfusion h
  · split at h
    · exact CmdAction.noConfusion h
    · split at h
      · split at h
        · exact CmdAction.noConfusion h
        · exact CmdAction.noConfusion h
      · split at h
        · exact CmdAction.noConfusion h
        · split at h
          · exact CmdAction.noConfusion h
          · split at h
            · split at h
              · exact CmdAction.noConfusion h
              · exact CmdAction.noConfusion h
            · split at h
              · split at h
                · exact CmdAction.noConfusion h
                · injection h with h1
                  exact h1.symm
              · split at h
                · exact CmdAction.noConfusion h
                · exact CmdAction.noConfusion h

/-- C10: the dispatcher behaves exactly as on the stripped, lower-cased
form of the input line, and the whole line — subject or file-name
argument included — is lower-cased before parsing: every argument a
`select`, `testbench` or `test` action carries is free of upper-case
letters, so a stored name containing an upper-case letter can never be
addressed by those commands. -/
theorem dispatch_lowercase_spec (line : List Char) :
    dispatch line = dispatch (canon line) ∧
    (∀ a, dispatch line = CmdAction.select a → ∀ c ∈ a, asciiUpper c = false) ∧
    (∀ a, dispatch line = CmdAction.testbench a → ∀ c ∈ a, asciiUpper c = false) ∧
    (∀ a, dispatch line = CmdAction.test a → ∀ c ∈ a, asciiUpper c = false) ∧
    (∀ a stored, dispatch line = CmdAction.select a →
      (∃ c ∈ stored, asciiUpper c = true) → a ≠ stored) := by
  have hsel : ∀ a, dispatch line = CmdAction.select a →
      ∀ c ∈ a, asciiUpper c = false := by
    intro a h c hc
    rw [dispatch_select_arg line a h] at hc
    exact asciiUpper_canon ((List.drop_sublist _ _).subset (mem_pyStrip hc))
  refine ⟨dispatch_canon line, hsel, ?_, ?_, ?_⟩
  · intro a h c hc
    rw [dispatch_testbench_arg line a h] at hc
    exact asciiUpper_canon (mem_splitArg hc)
  · intro a h c hc
    rw [dispatch_test_arg line a h] at hc
    exact asciiUpper_canon (mem_splitArg hc)
  · rintro a stored h ⟨c, hcs, hup⟩ he
    subst he
    rw [hsel a h c hcs] at hup
    exact Bool.false_ne_true hup

/-- Witness for C10 at a concrete input: the line
`  SELECT Gen_Adder ` dispatches identically to its canonical form
`select gen_adder`, and the lower-cased argument can never equal the
stored name `Gen_Adder`, which contains upper-case letters. -/
theorem dispatch_lowercase_spec_witness :
    dispatch (chars "  SELECT Gen_Adder ") =
      dispatch (canon (chars "  SELECT Gen_Adder ")) ∧
    chars "gen_adder" ≠ chars "Gen_Adder" :=
  ⟨(dispatch_lowercase_spec (chars "  SELECT Gen_Adder ")).1,
   (dispatch_lowercase_spec (chars "  SELECT Gen_Adder ")).2.2.2.2
     (chars "gen_adder") (chars "Gen_Adder") (by decide) (by decide)⟩

/-- Witness for C7 at concrete inputs: the run-squashing relation holds
for the subject ` Half Adder! `, and the distinct subjects `Adder` and
`adder` receive the same sanitized name. -/
theorem sanitize_name_spec_witness :
    RunSquashed ((pyStrip (chars " Half Adder! ")).map pyLower)
      (sanitize_name (chars " Half Adder! ")) ∧
    sanitize_name (chars "Adder") = sanitize_name (chars "adder") :=
  ⟨sanitize_name_spec.1 (chars " Half Adder! "), sanitize_name_spec.2.2.2.2⟩
